import Mathlib

/-!
Verification of the statistics harness `stats.py`.

The script launches an external game simulator a fixed number of times,
captures each run's textual output, strips ANSI escape sequences, and
extracts per run: a delayed-move warning count, a result link, and a
winner name.  It then prints a per-winner summary and writes one line per
recorded link to a file.

All text is modelled as `List Char`.  The external process is modelled by
the list of captured outputs (one per trial); a failing process
(`subprocess.check_output` with non-zero exit) is an `Except.error`.
Python's `\w` character class is modelled as ASCII word characters and
`\s` as the six ASCII whitespace characters; the float expression
`count/num_runs*100` and its `.2f` formatting are modelled with exact
rational arithmetic and round-half-to-even on the second decimal.
Console progress lines ("Run i/N...", the per-trial winner echo and the
two header lines) are not part of any claim and are omitted from the
line-list model of the summary loop.
-/

namespace Stats

deriving instance DecidableEq for Except

/-- Characters `0`-`9`, the class `[0-9]` of the escape-code pattern. -/
def isDigitC (c : Char) : Bool := '0' ≤ c && c ≤ '9'

/-- The final letters `[mGK]` of the escape-code pattern. -/
def isFinalC (c : Char) : Bool := c == 'm' || c == 'G' || c == 'K'

/-- Python `\s` (ASCII part): space, tab, newline, carriage return,
vertical tab, form feed. -/
def isSpaceC (c : Char) : Bool :=
  c == ' ' || c == '\t' || c == '\n' || c == '\r' || c == '\x0b' || c == '\x0c'

/-- Python `\w` (ASCII part): letters, digits, underscore. -/
def isWordC (c : Char) : Bool :=
  ('a' ≤ c && c ≤ 'z') || ('A' ≤ c && c ≤ 'Z') || ('0' ≤ c && c ≤ '9') || c == '_'

/-- Boolean "is a prefix of" on character lists. -/
def isPre : List Char → List Char → Bool
  | [], _ => true
  | _ :: _, [] => false
  | a :: as, b :: bs => a == b && isPre as bs

/-- Candidate lengths, in backtracking order, for the greedy `[0-9]{1,2}`:
two digits first when available, else one, else nothing. -/
def d12 : List Char → List Nat
  | c1 :: c2 :: _ => if isDigitC c1 then (if isDigitC c2 then [2, 1] else [1]) else []
  | [c1] => if isDigitC c1 then [1] else []
  | [] => []

/-- Candidate lengths, in backtracking order, for the optional parameter
group `([0-9]{1,2}(;[0-9]{1,2})?)?` of the escape-code pattern, given the
text following `ESC [`. -/
def groupCands (s : List Char) : List Nat :=
  ((d12 s).flatMap (fun n1 =>
    (match s.drop n1 with
     | ';' :: rest2 => (d12 rest2).map (fun n2 => n1 + 1 + n2)
     | _ => []) ++ [n1])) ++ [0]

/-- Whether the character at offset `k` of `rest` is one of `m`, `G`, `K`. -/
def finalAt (rest : List Char) (k : Nat) : Bool :=
  match rest.drop k with
  | c :: _ => isFinalC c
  | [] => false

/-- Length consumed after `ESC [` by the first parameter candidate (in the
regex engine's backtracking order) that is followed by a final letter. -/
def matchParams (rest : List Char) : Option Nat :=
  match (groupCands rest).find? (finalAt rest) with
  | some k => some (k + 3)
  | none => none

/-- Length of the match of `\x1B\[([0-9]{1,2}(;[0-9]{1,2})?)?[mGK]` at the
start of `s`, if any (Python `re` leftmost, greedy-with-backtracking
semantics). -/
def matchAnsiAt (s : List Char) : Option Nat :=
  match s with
  | c1 :: c2 :: rest => if c1 = '\x1B' ∧ c2 = '[' then matchParams rest else none
  | _ => none

/-- Worker for `stripAnsi`: `skip` characters of an already-matched escape
sequence remain to be discarded. -/
def stripAux : Nat → List Char → List Char
  | _, [] => []
  | 0, c :: rest =>
    (match matchAnsiAt (c :: rest) with
     | some n => stripAux (n - 1) rest
     | none => c :: stripAux 0 rest)
  | skip + 1, _ :: rest => stripAux skip rest

/-- `re.sub("\x1B\[([0-9]{1,2}(;[0-9]{1,2})?)?[mGK]", "", output)`:
delete every non-overlapping match, scanning left to right. -/
def stripAnsi (s : List Char) : List Char := stripAux 0 s

/-- The delayed-move warning phrase searched for by `re.findall`. -/
def phrase : List Char := "Sent move within wrong world tick".data

/-- Worker for the `re.findall` count: `skip` characters of an
already-matched occurrence remain to be skipped. -/
def countAux (phr : List Char) : Nat → List Char → Nat
  | _, [] => 0
  | 0, c :: rest =>
    if isPre phr (c :: rest) then 1 + countAux phr (phr.length - 1) rest
    else countAux phr 0 rest
  | skip + 1, _ :: rest => countAux phr skip rest

/-- `len(re.findall(r"Sent move within wrong world tick", output))`:
the number of non-overlapping occurrences, scanning left to right. -/
def countDelayedMoves (s : List Char) : Nat := countAux phrase 0 s

/-- The literal part of the link pattern `Game result is in:\s(.+)`. -/
def linkLit : List Char := "Game result is in:".data

/-- Match of the link pattern anchored at the start of `s`: the literal,
one whitespace character, then the greedy capture `(.+)` (at least one
character, stopping before a newline). -/
def matchLinkAt (s : List Char) : Option (List Char) :=
  if isPre linkLit s then
    match s.drop linkLit.length with
    | c :: rest =>
      if isSpaceC c then
        (match rest.takeWhile (fun x => x ≠ '\n') with
         | [] => none
         | d :: ds => some (d :: ds))
      else none
    | [] => none
  else none

/-- `re.search(r"Game result is in:\s(.+)", output)`, returning the
capture group: try each start position left to right. -/
def findLink : List Char → Option (List Char)
  | [] => none
  | c :: rest =>
    match matchLinkAt (c :: rest) with
    | some cap => some cap
    | none => findLink rest

/-- The literal part of the winner pattern `The winner was (\w+)`. -/
def winnerLit : List Char := "The winner was ".data

/-- Match of the winner pattern anchored at the start of `s`: the literal
followed by the greedy capture `(\w+)` (at least one word character). -/
def matchWinnerAt (s : List Char) : Option (List Char) :=
  if isPre winnerLit s then
    match (s.drop winnerLit.length).takeWhile isWordC with
    | [] => none
    | d :: ds => some (d :: ds)
  else none

/-- `re.search(r"The winner was (\w+)", output)`, returning the capture
group: try each start position left to right. -/
def findWinner : List Char → Option (List Char)
  | [] => none
  | c :: rest =>
    match matchWinnerAt (c :: rest) with
    | some cap => some cap
    | none => findWinner rest

/-- Delayed-move count recorded for one trial (the script runs the regexes
on the output after escape-code removal). -/
def trialDelayed (out : List Char) : Nat := countDelayedMoves (stripAnsi out)

/-- Winner capture recorded for one trial, if the pattern matched. -/
def trialWinner (out : List Char) : Option (List Char) := findWinner (stripAnsi out)

/-- Link capture recorded for one trial, if the pattern matched. -/
def trialLink (out : List Char) : Option (List Char) := findLink (stripAnsi out)

/-- `winners[winner_name] += 1` on a `defaultdict(int)`, modelled as an
insertion-ordered association list (Python dicts preserve insertion
order). -/
def bump : List (List Char × Nat) → List Char → List (List Char × Nat)
  | [], k => [(k, 1)]
  | (k', v) :: rest, k =>
    if k' = k then (k', v + 1) :: rest else (k', v) :: bump rest k

/-- The four accumulators of the script: `winners`, `winner_per_game`,
`delayed_moves_per_game`, `game_links`. -/
structure HarnessState where
  winners : List (List Char × Nat)
  winnerPerGame : List (List Char)
  delayed : List Nat
  links : List (List Char)
deriving DecidableEq

/-- One iteration of the trial loop, given the captured output: append the
delayed-move count unconditionally, the link capture if the link pattern
matched, and on a winner match append the name and bump its count. -/
def step (st : HarnessState) (out : List Char) : HarnessState :=
  let st1 : HarnessState := { st with delayed := st.delayed ++ [trialDelayed out] }
  let st2 : HarnessState :=
    match trialLink out with
    | some l => { st1 with links := st1.links ++ [l] }
    | none => st1
  match trialWinner out with
  | some w =>
    { st2 with winnerPerGame := st2.winnerPerGame ++ [w], winners := bump st2.winners w }
  | none => st2

/-- The whole trial loop over the captured outputs. -/
def runAll (outs : List (List Char)) : HarnessState :=
  outs.foldl step ⟨[], [], [], []⟩

/-- Python `max` on a list of naturals: `ValueError` on the empty list. -/
def listMax : List Nat → Except String Nat
  | [] => Except.error "max() arg is an empty sequence"
  | x :: xs => Except.ok (xs.foldl max x)

/-- Sum of the counts of the aggregate winner map. -/
def sumCounts : List (List Char × Nat) → Nat
  | [] => 0
  | (_, c) :: rest => c + sumCounts rest

/-- Round-half-to-even of the fraction `a / b` to a natural number (the
tie rule used by Python's float formatting). -/
def roundHalfEvenFrac (a b : Nat) : Nat :=
  if 2 * (a % b) < b then a / b
  else if b < 2 * (a % b) then a / b + 1
  else if (a / b) % 2 = 0 then a / b else a / b + 1

/-- Two decimal digits with a leading zero when needed. -/
def pad2 (n : Nat) : List Char :=
  if n < 10 then '0' :: Nat.toDigits 10 n else Nat.toDigits 10 n

/-- The hundredths value displayed by `{count/num_runs*100:.2f}`: the
exact percentage `c/n*100 = c*10000/n / 100`, rounded half-to-even at the
second decimal. -/
def pctHundredths (c n : Nat) : Nat := roundHalfEvenFrac (c * 10000) n

/-- The text produced by `{count/num_runs*100:.2f}`: the hundredths value
split at the decimal point. -/
def pctDisplay (c n : Nat) : List Char :=
  Nat.toDigits 10 (pctHundredths c n / 100) ++ ".".data ++ pad2 (pctHundredths c n % 100)

/-- `f"{winner}: {count} wins ({count/num_runs*100:.2f}% win rate)"`. -/
def rateLine (w : List Char) (c : Nat) (n : Nat) : List Char :=
  w ++ ": ".data ++ Nat.toDigits 10 c ++ " wins (".data ++
    pctDisplay c n ++ "% win rate)".data

/-- The warning line printed when some game had more than 10 delays. -/
def warnLine : List Char := "WARNING: Some games had a lot of delayed moves!".data

/-- `[i for i, x in enumerate(delayed_moves_per_game) if x > 10]`. -/
def indicesOver (delayed : List Nat) : List Nat :=
  ((delayed.enum.filter (fun p => 10 < p.2)).map Prod.fst)

/-- Elements joined by `", "`, as in Python's `str` of a list. -/
def commaSep : List (List Char) → List Char
  | [] => []
  | [x] => x
  | x :: y :: rest => x ++ ", ".data ++ commaSep (y :: rest)

/-- Python's printed form of a list of naturals, e.g. `[0, 2]`. -/
def renderNatList (ns : List Nat) : List Char :=
  '[' :: (commaSep (ns.map (Nat.toDigits 10)) ++ "]".data)

/-- The index line printed below the warning. -/
def idxLine (delayed : List Nat) : List Char := renderNatList (indicesOver delayed)

/-- The summary loop `for winner, count in winners.items(): ...`: each
iteration prints the win-rate line and then — inside this loop in the
source — recomputes `max(delayed_moves_per_game)` and, when it exceeds 10,
prints the warning line and the index list.  (`count_non_zero` is computed
and never used; it produces no output.)  A `ValueError` from `max` on an
empty list is the error case. -/
def summaryLines :
    List (List Char × Nat) → List Nat → Nat → Except String (List (List Char))
  | [], _, _ => Except.ok []
  | (w, c) :: rest, delayed, n =>
    match listMax delayed with
    | Except.error e => Except.error e
    | Except.ok m =>
      match summaryLines rest delayed n with
      | Except.error e => Except.error e
      | Except.ok ls =>
        Except.ok ((rateLine w c n :: (if 10 < m then [warnLine, idxLine delayed] else [])) ++ ls)

/-- `f"Winner: {winner}, delayed_moves: {delayed_moves}, link: {item}\n"`. -/
def fileLine (w : List Char) (d : Nat) (l : List Char) : List Char :=
  "Winner: ".data ++ w ++ ", delayed_moves: ".data ++ Nat.toDigits 10 d ++
    ", link: ".data ++ l ++ "\n".data

/-- Worker for the file-writing loop, at current index `i`.  Looking up
`winner_per_game[i]` (and then `delayed_moves_per_game[i]`) out of bounds
is Python's `IndexError`: the lines already written stay in the file and
the flag becomes `false`. -/
def goWrite (winners : List (List Char)) (delayed : List Nat) :
    Nat → List (List Char) → List (List Char) × Bool
  | _, [] => ([], true)
  | i, l :: ls =>
    match winners[i]? with
    | none => ([], false)
    | some w =>
      match delayed[i]? with
      | none => ([], false)
      | some d =>
        let p := goWrite winners delayed (i + 1) ls
        (fileLine w d l :: p.1, p.2)

/-- `for i, item in enumerate(game_links): ... f.write(...)`: the lines
that reach the file, and whether the loop finished without an
`IndexError`. -/
def writeLinksFile (links winners : List (List Char)) (delayed : List Nat) :
    List (List Char) × Bool :=
  goWrite winners delayed 0 links

/-- Everything after the trial loop: the summary loop (which can raise),
then the file-writing loop. -/
def fullResult (outs : List (List Char)) :
    Except String (List (List Char) × (List (List Char) × Bool)) :=
  match summaryLines (runAll outs).winners (runAll outs).delayed outs.length with
  | Except.error e => Except.error e
  | Except.ok ls =>
    Except.ok (ls, writeLinksFile (runAll outs).links (runAll outs).winnerPerGame (runAll outs).delayed)

/-- Sequential collection of the trial outputs; `subprocess.check_output`
raising `CalledProcessError` on a non-zero exit aborts at the first
failure. -/
def gatherOutputs : List (Except Unit (List Char)) → Except Unit (List (List Char))
  | [] => Except.ok []
  | Except.error e :: _ => Except.error e
  | Except.ok o :: ts =>
    match gatherOutputs ts with
    | Except.error e => Except.error e
    | Except.ok os => Except.ok (o :: os)

/-- The whole script on a list of trial results: `none` when an uncaught
process failure terminated it before any report or file was produced. -/
def harness (trials : List (Except Unit (List Char))) :
    Option (Except String (List (List Char) × (List (List Char) × Bool))) :=
  match gatherOutputs trials with
  | Except.error _ => none
  | Except.ok outs => some (fullResult outs)

/-- Number of lines of `ls` equal to `target`. -/
def countLine (target : List Char) : List (List Char) → Nat
  | [] => 0
  | l :: ls => (if l = target then 1 else 0) + countLine target ls

/-- Last character of a character list, if any. -/
def lastChar : List Char → Option Char
  | [] => none
  | [c] => some c
  | _ :: c :: rest => lastChar (c :: rest)

/-- `k` non-overlapping occurrences of `phrase` can be found in `s`: the
declarative reading of "number of non-overlapping occurrences".  `take`
consumes an occurrence at the front, `skip` passes over one character. -/
inductive HasOcc : Nat → List Char → Prop where
  | zero (s : List Char) : HasOcc 0 s
  | skip {k : Nat} {s : List Char} (c : Char) : HasOcc k s → HasOcc k (c :: s)
  | take {k : Nat} {s : List Char} :
      isPre phrase s = true → HasOcc k (s.drop phrase.length) → HasOcc (k + 1) s

/-! ### Helper lemmas -/

theorem matchAnsiAt_ne (c : Char) (t : List Char) (h : ¬ c = '\x1B') :
    matchAnsiAt (c :: t) = none := by
  cases t with
  | nil => rfl
  | cons c2 r => simp [matchAnsiAt, h]

theorem stripAux_zero_of_noEsc (s : List Char) (h : ∀ c ∈ s, c ≠ '\x1B') :
    stripAux 0 s = s := by
  induction s with
  | nil => rfl
  | cons c rest ih =>
    have hm : matchAnsiAt (c :: rest) = none :=
      matchAnsiAt_ne c rest (h c (List.mem_cons_self c rest))
    simp only [stripAux, hm]
    exact congrArg (c :: ·) (ih fun x hx => h x (List.mem_cons_of_mem c hx))

theorem gatherOutputs_error (ts : List (Except Unit (List Char)))
    (h : Except.error () ∈ ts) : ∃ e, gatherOutputs ts = Except.error e := by
  induction ts with
  | nil => simp at h
  | cons t rest ih =>
    cases t with
    | error e => exact ⟨e, rfl⟩
    | ok o =>
      have h2 : Except.error () ∈ rest := by
        rcases List.mem_cons.mp h with h1 | h1
        · simp at h1
        · exact h1
      rcases ih h2 with ⟨e, he⟩
      exact ⟨e, by simp only [gatherOutputs, he]⟩

theorem step_delayed (st : HarnessState) (o : List Char) :
    (step st o).delayed = st.delayed ++ [trialDelayed o] := by
  cases h1 : trialLink o <;> cases h2 : trialWinner o <;> simp [step, h1, h2]

theorem step_wpg (st : HarnessState) (o : List Char) :
    (step st o).winnerPerGame = st.winnerPerGame ++ (trialWinner o).toList := by
  cases h1 : trialLink o <;> cases h2 : trialWinner o <;> simp [step, h1, h2]

theorem step_links (st : HarnessState) (o : List Char) :
    (step st o).links = st.links ++ (trialLink o).toList := by
  cases h1 : trialLink o <;> cases h2 : trialWinner o <;> simp [step, h1, h2]

theorem step_winners_some (st : HarnessState) (o w : List Char)
    (h : trialWinner o = some w) : (step st o).winners = bump st.winners w := by
  cases h1 : trialLink o <;> simp [step, h1, h]

theorem step_winners_none (st : HarnessState) (o : List Char)
    (h : trialWinner o = none) : (step st o).winners = st.winners := by
  cases h1 : trialLink o <;> simp [step, h1, h]

theorem foldl_delayed (outs : List (List Char)) :
    ∀ st : HarnessState,
      (outs.foldl step st).delayed = st.delayed ++ outs.map trialDelayed := by
  induction outs with
  | nil => intro st; simp
  | cons o os ih =>
    intro st
    simp only [List.foldl_cons, List.map_cons]
    rw [ih, step_delayed]
    simp

theorem foldl_wpg (outs : List (List Char)) :
    ∀ st : HarnessState,
      (outs.foldl step st).winnerPerGame
        = st.winnerPerGame ++ outs.filterMap trialWinner := by
  induction outs with
  | nil => intro st; simp
  | cons o os ih =>
    intro st
    simp only [List.foldl_cons, List.filterMap_cons]
    rw [ih, step_wpg]
    cases h : trialWinner o <;> simp [h]

theorem foldl_links (outs : List (List Char)) :
    ∀ st : HarnessState,
      (outs.foldl step st).links = st.links ++ outs.filterMap trialLink := by
  induction outs with
  | nil => intro st; simp
  | cons o os ih =>
    intro st
    simp only [List.foldl_cons, List.filterMap_cons]
    rw [ih, step_links]
    cases h : trialLink o <;> simp [h]

theorem runAll_delayed (outs : List (List Char)) :
    (runAll outs).delayed = outs.map trialDelayed := by
  simpa [runAll] using foldl_delayed outs ⟨[], [], [], []⟩

theorem runAll_wpg (outs : List (List Char)) :
    (runAll outs).winnerPerGame = outs.filterMap trialWinner := by
  simpa [runAll] using foldl_wpg outs ⟨[], [], [], []⟩

theorem runAll_links (outs : List (List Char)) :
    (runAll outs).links = outs.filterMap trialLink := by
  simpa [runAll] using foldl_links outs ⟨[], [], [], []⟩

/-! ### Claim C1 -/

/-- Claim C1, counterexample: stripping `ESC [ 1 ESC [ m m` once leaves
`ESC [ 1 m` (deleting `ESC [ m` glues a new escape sequence together), and
a second strip deletes that too, so the substitution is not idempotent. -/
theorem stripAnsi_not_idempotent :
    stripAnsi (stripAnsi "\x1B[1\x1B[mm".data) ≠ stripAnsi "\x1B[1\x1B[mm".data := by
  decide

/-- Claim C1, amended: the strip is idempotent whenever the once-stripped
text contains no remaining ESC character (deleting a match can juxtapose
characters into a fresh `ESC [ ... m|G|K` sequence, which is exactly what
the counterexample exploits; with no ESC left no further match exists). -/
theorem stripAnsi_idem_of_noEsc (s : List Char) (h : '\x1B' ∉ stripAnsi s) :
    stripAnsi (stripAnsi s) = stripAnsi s :=
  stripAux_zero_of_noEsc (stripAnsi s) (fun _ hc hceq => h (hceq ▸ hc))

/-- Witness for the amended C1 at a concrete input. -/
theorem stripAnsi_idem_witness :
    stripAnsi (stripAnsi "ab\x1B[32mcd".data) = stripAnsi "ab\x1B[32mcd".data :=
  stripAnsi_idem_of_noEsc "ab\x1B[32mcd".data (by decide)

/-! ### Claim C9 -/

/-- Claim C9: if `subprocess.check_output` fails (non-zero exit) in any
trial, the uncaught exception terminates the script: no summary is printed
and no output file is produced (the harness yields `none`): failure is
fatal, with no retry and no partial report. -/
theorem harness_aborts_on_process_error (trials : List (Except Unit (List Char)))
    (h : Except.error () ∈ trials) : harness trials = none := by
  rcases gatherOutputs_error trials h with ⟨e, he⟩
  simp only [harness, he]

/-- Witness for C9 at a concrete trial list. -/
theorem harness_aborts_witness :
    harness [Except.ok "q".data, Except.error ()] = none :=
  harness_aborts_on_process_error [Except.ok "q".data, Except.error ()] (by decide)

/-! ### Claim C8 -/

/-- Claim C8: parsing never raises: the delayed-move count is appended for
every trial (`delayed` is a `map` over all outputs), while a trial whose
cleaned output has no winner match or no link match simply contributes no
entry to the corresponding list (`filterMap`), so a missing winner shifts
the positional correspondence between the winner list and the link list. -/
theorem per_trial_lists (outs : List (List Char)) :
    (runAll outs).delayed = outs.map trialDelayed ∧
    (runAll outs).winnerPerGame = outs.filterMap trialWinner ∧
    (runAll outs).links = outs.filterMap trialLink :=
  ⟨runAll_delayed outs, runAll_wpg outs, runAll_links outs⟩

/-! ### Claim C4 -/

theorem sumCounts_bump (m : List (List Char × Nat)) (k : List Char) :
    sumCounts (bump m k) = sumCounts m + 1 := by
  induction m with
  | nil => simp [bump, sumCounts]
  | cons p rest ih =>
    obtain ⟨q, v⟩ := p
    by_cases h : q = k
    · simp only [bump, if_pos h, sumCounts]
      omega
    · simp only [bump, if_neg h, sumCounts, ih]
      omega

theorem foldl_sumCounts (outs : List (List Char)) :
    ∀ st : HarnessState,
      sumCounts ((outs.foldl step st).winners)
        = sumCounts st.winners + outs.countP (fun o => (trialWinner o).isSome) := by
  induction outs with
  | nil => intro st; simp
  | cons o os ih =>
    intro st
    simp only [List.foldl_cons, List.countP_cons]
    rw [ih]
    cases h : trialWinner o with
    | some w =>
      rw [step_winners_some st o w h, sumCounts_bump]
      simp [h]
      omega
    | none =>
      rw [step_winners_none st o h]
      simp [h]

/-- Claim C4: when every trial's cleaned output matches the winner
pattern, the counts of the aggregate winner map sum to exactly the number
of trials. -/
theorem win_counts_sum (outs : List (List Char)) (_hN : 1 ≤ outs.length)
    (hall : ∀ o ∈ outs, (trialWinner o).isSome = true) :
    sumCounts (runAll outs).winners = outs.length := by
  have h := foldl_sumCounts outs ⟨[], [], [], []⟩
  have hc : outs.countP (fun o => (trialWinner o).isSome) = outs.length :=
    List.countP_eq_length.mpr hall
  simp only [runAll, h, hc, sumCounts]
  omega

/-- Witness for C4 at a concrete single-trial run. -/
theorem win_counts_sum_witness :
    sumCounts (runAll ["The winner was A".data]).winners = 1 :=
  win_counts_sum ["The winner was A".data] (by decide) (by decide)

/-! ### Line-shape lemmas for the summary loop -/

theorem lastChar_cons (c : Char) (z : List Char) (h : z ≠ []) :
    lastChar (c :: z) = lastChar z := by
  cases z with
  | nil => exact absurd rfl h
  | cons a as => rfl

theorem lastChar_append (x y : List Char) (h : y ≠ []) :
    lastChar (x ++ y) = lastChar y := by
  induction x with
  | nil => rfl
  | cons c t ih =>
    rw [List.cons_append, lastChar_cons c (t ++ y)
      (List.append_ne_nil_of_right_ne_nil t h), ih]

theorem lastChar_rateLine (w : List Char) (c n : Nat) :
    lastChar (rateLine w c n) = some ')' := by
  unfold rateLine
  rw [lastChar_append _ _ (by decide)]
  decide

theorem lastChar_warnLine : lastChar warnLine = some '!' := by decide

theorem lastChar_idxLine (d : List Nat) : lastChar (idxLine d) = some ']' := by
  unfold idxLine renderNatList
  rw [lastChar_cons _ _ (List.append_ne_nil_of_right_ne_nil _ (by decide)),
    lastChar_append _ _ (by decide)]
  decide

theorem rateLine_ne_warnLine (w : List Char) (c n : Nat) :
    rateLine w c n ≠ warnLine := by
  intro h
  have h2 := congrArg lastChar h
  rw [lastChar_rateLine, lastChar_warnLine] at h2
  exact absurd h2 (by decide)

theorem rateLine_ne_idxLine (w : List Char) (c n : Nat) (d : List Nat) :
    rateLine w c n ≠ idxLine d := by
  intro h
  have h2 := congrArg lastChar h
  rw [lastChar_rateLine, lastChar_idxLine] at h2
  exact absurd h2 (by decide)

theorem warnLine_ne_idxLine (d : List Nat) : warnLine ≠ idxLine d := by
  intro h
  have h2 := congrArg lastChar h
  rw [lastChar_warnLine, lastChar_idxLine] at h2
  exact absurd h2 (by decide)

/-! ### Claim C2 -/

/-- Claim C2, counterexample: with two distinct winners and a maximal
delayed-move count of 11, the summary loop prints the warning line twice,
not exactly once (the warning block sits inside the per-winner loop in the
source). -/
theorem warn_printed_twice :
    (summaryLines [("Alice".data, 1), ("Bob".data, 1)] [11, 0] 2).map (countLine warnLine)
      = Except.ok 2 := by
  decide

/-- Claim C2, amended: when the maximal delayed-move count exceeds 10, the
summary loop prints the warning line, and below it the line with the
zero-based indices of the trials whose count exceeds 10, once per distinct
winner in the aggregate map — so exactly once precisely when there is
exactly one distinct winner, and not at all when no trial matched the
winner pattern. -/
theorem warn_per_winner (wi : List (List Char × Nat)) (delayed : List Nat) (n m : Nat)
    (hmax : listMax delayed = Except.ok m) (hm : 10 < m) :
    (summaryLines wi delayed n).map (countLine warnLine) = Except.ok wi.length ∧
    (summaryLines wi delayed n).map (countLine (idxLine delayed)) = Except.ok wi.length := by
  induction wi with
  | nil => exact ⟨rfl, rfl⟩
  | cons p rest ih =>
    obtain ⟨w, c⟩ := p
    obtain ⟨ih1, ih2⟩ := ih
    rcases hrest : summaryLines rest delayed n with e | ls
    · rw [hrest] at ih1
      simp [Except.map] at ih1
    · rw [hrest] at ih1 ih2
      simp only [Except.map, Except.ok.injEq] at ih1 ih2
      have hsum : summaryLines ((w, c) :: rest) delayed n
          = Except.ok ((rateLine w c n :: [warnLine, idxLine delayed]) ++ ls) := by
        simp only [summaryLines, hmax, hrest, if_pos hm]
      rw [hsum]
      constructor
      · simp only [Except.map, Except.ok.injEq, List.cons_append, List.nil_append,
          List.append_eq, countLine, if_true]
        rw [if_neg (rateLine_ne_warnLine w c n),
          if_neg (Ne.symm (warnLine_ne_idxLine delayed)), ih1]
        simp only [List.length_cons]
        omega
      · simp only [Except.map, Except.ok.injEq, List.cons_append, List.nil_append,
          List.append_eq, countLine, if_true]
        rw [if_neg (rateLine_ne_idxLine w c n delayed),
          if_neg (warnLine_ne_idxLine delayed), ih2]
        simp only [List.length_cons]
        omega

/-- Witness for the amended C2 at a concrete single-winner input. -/
theorem warn_per_winner_witness :
    (summaryLines [("Al".data, 2)] [11] 1).map (countLine warnLine) = Except.ok 1 ∧
    (summaryLines [("Al".data, 2)] [11] 1).map (countLine (idxLine [11])) = Except.ok 1 :=
  warn_per_winner [("Al".data, 2)] [11] 1 11 rfl (by decide)

/-! ### Claim C3 -/

/-- Claim C3, counterexample: a run with zero completed trials terminates
normally: the summary produces no lines and raises no error, and the file
loop writes nothing, because the winner map is empty too and the summary
loop body (where `max` sits) never executes. -/
theorem empty_run_is_ok : fullResult [] = Except.ok ([], ([], true)) := by decide

/-- Claim C3, amended: `max` over an empty sequence is indeed fatal when
evaluated — but with zero completed trials the winners map is empty along
with the delayed-move list, so the summary loop never evaluates
`max(delayed_moves_per_game)` and the script finishes without error. -/
theorem empty_delayed_no_error :
    listMax ([] : List Nat) = Except.error "max() arg is an empty sequence" ∧
    ∀ outs : List (List Char), (runAll outs).delayed = [] →
      fullResult outs = Except.ok ([], ([], true)) := by
  refine ⟨rfl, ?_⟩
  intro outs h
  have h2 : outs = [] := by
    have hd := runAll_delayed outs
    rw [h] at hd
    exact (List.map_eq_nil_iff.mp hd.symm)
  subst h2
  rfl

/-- Witness for the amended C3 at the empty trial list. -/
theorem empty_delayed_no_error_witness :
    fullResult [] = Except.ok ([], ([], true)) :=
  empty_delayed_no_error.2 [] rfl

/-! ### Claim C5 -/

theorem roundFrac_close (a b : Nat) (hb : 0 < b) :
    |((roundHalfEvenFrac a b : ℚ)) - (a : ℚ) / (b : ℚ)| ≤ 1 / 2 := by
  have hbQ : (0 : ℚ) < (b : ℚ) := by exact_mod_cast hb
  have hkey : ((b : ℚ)) * ((a / b : Nat) : ℚ) + ((a % b : Nat) : ℚ) = (a : ℚ) := by
    exact_mod_cast Nat.div_add_mod a b
  have hx : ((a / b : Nat) : ℚ) + ((a % b : Nat) : ℚ) / (b : ℚ) = (a : ℚ) / (b : ℚ) := by
    rw [eq_div_iff (ne_of_gt hbQ), add_mul, div_mul_cancel₀ _ (ne_of_gt hbQ)]
    linarith [hkey]
  have hr0 : (0 : ℚ) ≤ ((a % b : Nat) : ℚ) := by positivity
  have hrb : ((a % b : Nat) : ℚ) < (b : ℚ) := by exact_mod_cast Nat.mod_lt a hb
  rw [← hx]
  unfold roundHalfEvenFrac
  split_ifs with h1 h2 h3
  · have h1Q : 2 * ((a % b : Nat) : ℚ) < (b : ℚ) := by exact_mod_cast h1
    rw [show ((a / b : Nat) : ℚ) - (((a / b : Nat) : ℚ) + ((a % b : Nat) : ℚ) / (b : ℚ))
        = -(((a % b : Nat) : ℚ) / (b : ℚ)) from by ring,
      abs_neg, abs_of_nonneg (by positivity), div_le_iff₀ hbQ]
    linarith
  · have h2Q : (b : ℚ) < 2 * ((a % b : Nat) : ℚ) := by exact_mod_cast h2
    have hlt : ((a % b : Nat) : ℚ) / (b : ℚ) < 1 := (div_lt_one hbQ).mpr hrb
    have hge : 1 / 2 ≤ ((a % b : Nat) : ℚ) / (b : ℚ) := by
      rw [le_div_iff₀ hbQ]
      linarith
    push_cast
    rw [show (((a / b : Nat) : ℚ) + 1) - (((a / b : Nat) : ℚ) + ((a % b : Nat) : ℚ) / (b : ℚ))
        = 1 - ((a % b : Nat) : ℚ) / (b : ℚ) from by ring,
      abs_of_nonneg (by linarith)]
    linarith
  · have htie : 2 * (a % b) = b := by omega
    have hr2 : ((a % b : Nat) : ℚ) / (b : ℚ) = 1 / 2 := by
      rw [div_eq_iff (ne_of_gt hbQ)]
      have htieQ : 2 * ((a % b : Nat) : ℚ) = (b : ℚ) := by exact_mod_cast htie
      linarith
    rw [show ((a / b : Nat) : ℚ) - (((a / b : Nat) : ℚ) + ((a % b : Nat) : ℚ) / (b : ℚ))
        = -(((a % b : Nat) : ℚ) / (b : ℚ)) from by ring,
      abs_neg, abs_of_nonneg (by positivity), hr2]
  · have htie : 2 * (a % b) = b := by omega
    have hr2 : ((a % b : Nat) : ℚ) / (b : ℚ) = 1 / 2 := by
      rw [div_eq_iff (ne_of_gt hbQ)]
      have htieQ : 2 * ((a % b : Nat) : ℚ) = (b : ℚ) := by exact_mod_cast htie
      linarith
    push_cast
    rw [show (((a / b : Nat) : ℚ) + 1) - (((a / b : Nat) : ℚ) + ((a % b : Nat) : ℚ) / (b : ℚ))
        = 1 - ((a % b : Nat) : ℚ) / (b : ℚ) from by ring, hr2,
      show (1 : ℚ) - 1 / 2 = 1 / 2 from by norm_num,
      abs_of_nonneg (by norm_num : (0 : ℚ) ≤ 1 / 2)]

theorem summary_mem (wi : List (List Char × Nat)) (delayed : List Nat) (n m : Nat)
    (hmax : listMax delayed = Except.ok m) :
    ∃ ls, summaryLines wi delayed n = Except.ok ls ∧
      ∀ w c, (w, c) ∈ wi → rateLine w c n ∈ ls := by
  induction wi with
  | nil => exact ⟨[], rfl, by simp⟩
  | cons p rest ih =>
    obtain ⟨w0, c0⟩ := p
    obtain ⟨ls, hls, hmem⟩ := ih
    refine ⟨(rateLine w0 c0 n :: (if 10 < m then [warnLine, idxLine delayed] else [])) ++ ls,
      by simp only [summaryLines, hmax, hls], ?_⟩
    intro w c hwc
    rcases List.mem_cons.mp hwc with h | h
    · injection h with hw hc
      subst hw
      subst hc
      exact List.mem_append_left _ (List.mem_cons_self _ _)
    · exact List.mem_append_right _ (hmem w c h)

/-- Claim C5: every winner of the aggregate map gets a summary line built
from its count `c` and the trial total `N` as
`<w>: <c> wins (<c/N*100 to two decimals>% win rate)`, and the displayed
hundredths value differs from the exact percentage `c/N*100` by at most
half of the last displayed digit (1/200). -/
theorem win_rate_display (outs : List (List Char)) (w : List Char) (c : Nat)
    (hm : (w, c) ∈ (runAll outs).winners) :
    ∃ ls, summaryLines (runAll outs).winners (runAll outs).delayed outs.length
        = Except.ok ls ∧
      rateLine w c outs.length ∈ ls ∧
      |((pctHundredths c outs.length : ℚ)) / 100 - (c : ℚ) / (outs.length : ℚ) * 100|
        ≤ 1 / 200 := by
  have hne : outs ≠ [] := by
    rintro rfl
    simp [runAll] at hm
  obtain ⟨d, ds, hds⟩ : ∃ d ds, (runAll outs).delayed = d :: ds := by
    rcases houts : outs with _ | ⟨o, os⟩
    · exact absurd houts hne
    · exact ⟨trialDelayed o, os.map trialDelayed, by rw [runAll_delayed]; simp⟩
  have hmax : listMax (runAll outs).delayed = Except.ok (ds.foldl max d) := by
    rw [hds]
    rfl
  obtain ⟨ls, hok, hmem⟩ :=
    summary_mem (runAll outs).winners (runAll outs).delayed outs.length (ds.foldl max d) hmax
  refine ⟨ls, hok, hmem w c hm, ?_⟩
  have hn : 0 < outs.length := List.length_pos_iff_ne_nil.mpr hne
  have hclose := roundFrac_close (c * 10000) outs.length hn
  have hN : (0 : ℚ) < ((outs.length : Nat) : ℚ) := by exact_mod_cast hn
  have hcast : ((c * 10000 : Nat) : ℚ) = (c : ℚ) * 10000 := by push_cast; ring
  have key : (c : ℚ) / ((outs.length : Nat) : ℚ) * 100
      = ((c * 10000 : Nat) : ℚ) / ((outs.length : Nat) : ℚ) / 100 := by
    rw [hcast]
    field_simp
    ring
  rw [pctHundredths, key,
    show ((roundHalfEvenFrac (c * 10000) outs.length : Nat) : ℚ) / 100
        - ((c * 10000 : Nat) : ℚ) / ((outs.length : Nat) : ℚ) / 100
      = (((roundHalfEvenFrac (c * 10000) outs.length : Nat) : ℚ)
        - ((c * 10000 : Nat) : ℚ) / ((outs.length : Nat) : ℚ)) / 100 from by ring,
    abs_div]
  rw [show |(100 : ℚ)| = 100 from by norm_num]
  linarith

/-- Witness for C5 at a concrete single-trial run. -/
theorem win_rate_display_witness :
    ∃ ls, summaryLines (runAll ["The winner was Bo".data]).winners
        (runAll ["The winner was Bo".data]).delayed 1 = Except.ok ls ∧
      rateLine "Bo".data 1 1 ∈ ls ∧
      |((pctHundredths 1 1 : ℚ)) / 100 - ((1 : Nat) : ℚ) / ((1 : Nat) : ℚ) * 100|
        ≤ 1 / 200 :=
  win_rate_display ["The winner was Bo".data] "Bo".data 1 (by decide)

/-! ### Claim C6 -/

theorem drop_cons_sub (c : Char) (t : List Char) (n : Nat) (h : 0 < n) :
    (c :: t).drop n = t.drop (n - 1) := by
  cases n with
  | zero => exact absurd h (lt_irrefl 0)
  | succ k => simp

theorem countAux_drop (skip : Nat) :
    ∀ s : List Char, countAux phrase skip s = countAux phrase 0 (s.drop skip) := by
  induction skip with
  | zero => intro s; rw [List.drop_zero]
  | succ k ih =>
    intro s
    cases s with
    | nil => rfl
    | cons c rest =>
      rw [List.drop_succ_cons, ← ih rest]
      rfl

theorem g_cons (c : Char) (rest : List Char) :
    countDelayedMoves (c :: rest)
      = if isPre phrase (c :: rest) then
          1 + countDelayedMoves ((c :: rest).drop phrase.length)
        else countDelayedMoves rest := by
  have heq : countAux phrase 0 (c :: rest)
      = if isPre phrase (c :: rest) then 1 + countAux phrase (phrase.length - 1) rest
        else countAux phrase 0 rest := rfl
  show countAux phrase 0 (c :: rest) = _
  rw [heq, countAux_drop (phrase.length - 1) rest,
    drop_cons_sub c rest phrase.length (by decide)]
  rfl

theorem greedy_SD (n : Nat) :
    ∀ s : List Char, s.length ≤ n →
      (∀ j, j ≤ phrase.length →
        countDelayedMoves s ≤ 1 + countDelayedMoves (s.drop j)) ∧
      (∀ j, countDelayedMoves (s.drop j) ≤ countDelayedMoves s) := by
  induction n with
  | zero =>
    intro s hs
    have hnil : s = [] := List.length_eq_zero.mp (Nat.le_zero.mp hs)
    subst hnil
    exact ⟨fun j _ => by simp [List.drop_nil], fun j => by simp [List.drop_nil]⟩
  | succ n ih =>
    intro s hs
    cases s with
    | nil =>
      exact ⟨fun j _ => by simp [List.drop_nil], fun j => by simp [List.drop_nil]⟩
    | cons c rest =>
      have hrest : rest.length ≤ n := by
        simp only [List.length_cons] at hs
        omega
      have cons_ge : ∀ (a : Char) (t : List Char), t.length ≤ n →
          countDelayedMoves t ≤ countDelayedMoves (a :: t) := by
        intro a t ht
        rw [g_cons]
        by_cases hp : isPre phrase (a :: t)
        · rw [if_pos hp, drop_cons_sub a t phrase.length (by decide)]
          exact (ih t ht).1 (phrase.length - 1) (Nat.sub_le _ _)
        · rw [if_neg hp]
      constructor
      · intro j hj
        cases j with
        | zero =>
          rw [List.drop_zero]
          omega
        | succ i =>
          rw [List.drop_succ_cons, g_cons]
          by_cases hp : isPre phrase (c :: rest)
          · rw [if_pos hp, drop_cons_sub c rest phrase.length (by decide)]
            have hsplit : phrase.length - 1 = i + (phrase.length - 1 - i) := by
              omega
            rw [hsplit, ← List.drop_drop]
            have hlen : (rest.drop i).length ≤ n := by
              rw [List.length_drop]
              omega
            have hD := (ih (rest.drop i) hlen).2 (phrase.length - 1 - i)
            omega
          · rw [if_neg hp]
            exact (ih rest hrest).1 i (by omega)
      · intro j
        cases j with
        | zero =>
          rw [List.drop_zero]
        | succ i =>
          rw [List.drop_succ_cons]
          calc countDelayedMoves (rest.drop i)
              ≤ countDelayedMoves rest := (ih rest hrest).2 i
            _ ≤ countDelayedMoves (c :: rest) := cons_ge c rest hrest

theorem g_le_cons (c : Char) (s : List Char) :
    countDelayedMoves s ≤ countDelayedMoves (c :: s) := by
  rw [g_cons]
  by_cases hp : isPre phrase (c :: s)
  · rw [if_pos hp, drop_cons_sub c s phrase.length (by decide)]
    exact (greedy_SD s.length s le_rfl).1 (phrase.length - 1) (Nat.sub_le _ _)
  · rw [if_neg hp]

theorem g_of_pre (s : List Char) (h : isPre phrase s = true) :
    countDelayedMoves s = 1 + countDelayedMoves (s.drop phrase.length) := by
  cases s with
  | nil => exact absurd h (by decide)
  | cons c rest => rw [g_cons, if_pos h]

theorem hasOcc_le (k : Nat) (s : List Char) (h : HasOcc k s) :
    k ≤ countDelayedMoves s := by
  induction h with
  | zero t => exact Nat.zero_le _
  | skip c _ ih => exact le_trans ih (g_le_cons c _)
  | take hpre _ ih =>
    rw [g_of_pre _ hpre]
    omega

theorem hasOcc_g (n : Nat) :
    ∀ s : List Char, s.length ≤ n → HasOcc (countDelayedMoves s) s := by
  induction n with
  | zero =>
    intro s hs
    have hnil : s = [] := List.length_eq_zero.mp (Nat.le_zero.mp hs)
    subst hnil
    exact HasOcc.zero []
  | succ n ih =>
    intro s hs
    cases s with
    | nil => exact HasOcc.zero []
    | cons c rest =>
      have hrest : rest.length ≤ n := by
        simp only [List.length_cons] at hs
        omega
      by_cases hp : isPre phrase (c :: rest)
      · have hlen : ((c :: rest).drop phrase.length).length ≤ n := by
          rw [List.length_drop, List.length_cons]
          have hL : 0 < phrase.length := by decide
          omega
        have h1 := HasOcc.take hp (ih ((c :: rest).drop phrase.length) hlen)
        rw [g_of_pre _ hp, Nat.add_comm]
        exact h1
      · rw [g_cons, if_neg hp]
        exact HasOcc.skip c (ih rest hrest)

/-- Claim C6: the delayed-move count recorded for trial `i` is the
left-to-right non-overlapping count of the warning phrase in the cleaned
output; the count is achieved by a set of disjoint occurrences (`HasOcc`),
and no larger set of disjoint occurrences exists — so it equals the number
of non-overlapping occurrences, 0 exactly when the phrase is absent. -/
theorem delayed_count_spec (outs : List (List Char)) (i : Nat) (out : List Char)
    (h : outs[i]? = some out) :
    (runAll outs).delayed[i]? = some (countDelayedMoves (stripAnsi out)) ∧
    HasOcc (countDelayedMoves (stripAnsi out)) (stripAnsi out) ∧
    (∀ k, HasOcc k (stripAnsi out) → k ≤ countDelayedMoves (stripAnsi out)) := by
  refine ⟨?_, hasOcc_g (stripAnsi out).length (stripAnsi out) le_rfl,
    fun k hk => hasOcc_le k (stripAnsi out) hk⟩
  rw [runAll_delayed, List.getElem?_map, h]
  rfl

/-- Witness for C6: on the concatenation of two copies of the phrase the
recorded count is at least 2, obtained from an explicit pair of disjoint
occurrences. -/
theorem delayed_count_spec_witness :
    2 ≤ countDelayedMoves (stripAnsi (phrase ++ phrase)) := by
  have hocc : HasOcc 2 (stripAnsi (phrase ++ phrase)) := by
    have hs : stripAnsi (phrase ++ phrase) = phrase ++ phrase := by decide
    rw [hs]
    have hp1 : isPre phrase (phrase ++ phrase) = true := by decide
    have hd1 : (phrase ++ phrase).drop phrase.length = phrase := by decide
    have hp2 : isPre phrase phrase = true := by decide
    have hd2 : phrase.drop phrase.length = [] := by decide
    have o1 : HasOcc 1 phrase :=
      HasOcc.take hp2 (by rw [hd2]; exact HasOcc.zero [])
    exact HasOcc.take hp1 (by rw [hd1]; exact o1)
  exact (delayed_count_spec [phrase ++ phrase] 0 (phrase ++ phrase) rfl).2.2 2 hocc

/-! ### Claims C7 and C10 -/

theorem goWrite_complete (winners : List (List Char)) (delayed : List Nat) :
    ∀ (links : List (List Char)) (i0 : Nat),
      i0 + links.length ≤ winners.length → i0 + links.length ≤ delayed.length →
      (goWrite winners delayed i0 links).2 = true ∧
      (goWrite winners delayed i0 links).1.length = links.length ∧
      (∀ (j : Nat) (l w : List Char) (d : Nat),
        links[j]? = some l → winners[i0 + j]? = some w →
        delayed[i0 + j]? = some d →
        (goWrite winners delayed i0 links).1[j]? = some (fileLine w d l)) := by
  intro links
  induction links with
  | nil =>
    intro i0 h1 h2
    refine ⟨rfl, rfl, ?_⟩
    intro j l w d hl
    simp at hl
  | cons l0 ls ih =>
    intro i0 h1 h2
    have hiw : i0 < winners.length := by
      simp only [List.length_cons] at h1
      omega
    have hid : i0 < delayed.length := by
      simp only [List.length_cons] at h2
      omega
    have hw0 : winners[i0]? = some winners[i0] := List.getElem?_eq_getElem hiw
    have hd0 : delayed[i0]? = some delayed[i0] := List.getElem?_eq_getElem hid
    have hgw : goWrite winners delayed i0 (l0 :: ls)
        = (fileLine winners[i0] delayed[i0] l0 :: (goWrite winners delayed (i0 + 1) ls).1,
           (goWrite winners delayed (i0 + 1) ls).2) := by
      simp only [goWrite, hw0, hd0]
    obtain ⟨ihok, ihlen, ihget⟩ := ih (i0 + 1)
      (by simp only [List.length_cons] at h1; omega)
      (by simp only [List.length_cons] at h2; omega)
    refine ⟨?_, ?_, ?_⟩
    · rw [hgw]
      exact ihok
    · rw [hgw]
      simp only [List.length_cons, ihlen]
    · intro j l w d hl hw hd
      cases j with
      | zero =>
        rw [Nat.add_zero] at hw hd
        rw [List.getElem?_cons_zero] at hl
        rw [hw0] at hw
        rw [hd0] at hd
        injection hl with hleq
        injection hw with hweq
        injection hd with hdeq
        subst hleq
        subst hweq
        subst hdeq
        rw [hgw, List.getElem?_cons_zero]
      | succ j' =>
        rw [hgw, List.getElem?_cons_succ]
        rw [List.getElem?_cons_succ] at hl
        apply ihget j' l w d hl
        · rw [show i0 + 1 + j' = i0 + (j' + 1) from by omega]
          exact hw
        · rw [show i0 + 1 + j' = i0 + (j' + 1) from by omega]
          exact hd

/-- Claim C7, counterexample: a run whose single trial reports a link but
no winner records one link, yet the file loop writes zero lines and stops
with an `IndexError` — not one line per recorded link. -/
theorem write_misses_link :
    (runAll ["Game result is in: http://x/1".data]).links.length = 1 ∧
    writeLinksFile (runAll ["Game result is in: http://x/1".data]).links
        (runAll ["Game result is in: http://x/1".data]).winnerPerGame
        (runAll ["Game result is in: http://x/1".data]).delayed = ([], false) := by
  decide

/-- Claim C7, amended: provided the winner and delayed-count lists are at
least as long as the link list (in particular whenever every trial matched
all three patterns), the loop finishes and writes exactly one line per
recorded link, pairing the i-th link with the i-th winner and i-th
delayed-move count, formatted
`Winner: <name>, delayed_moves: <count>, link: <link>`. -/
theorem write_one_line_per_link (links winners : List (List Char)) (delayed : List Nat)
    (h1 : links.length ≤ winners.length) (h2 : links.length ≤ delayed.length) :
    (writeLinksFile links winners delayed).2 = true ∧
    (writeLinksFile links winners delayed).1.length = links.length ∧
    ∀ (j : Nat) (l w : List Char) (d : Nat),
      links[j]? = some l → winners[j]? = some w → delayed[j]? = some d →
      (writeLinksFile links winners delayed).1[j]? = some (fileLine w d l) := by
  have h := goWrite_complete winners delayed links 0 (by omega) (by omega)
  refine ⟨h.1, h.2.1, ?_⟩
  intro j l w d hl hw hd
  exact h.2.2 j l w d hl (by rw [Nat.zero_add]; exact hw)
    (by rw [Nat.zero_add]; exact hd)

/-- Witness for the amended C7 at concrete aligned lists. -/
theorem write_one_line_witness :
    (writeLinksFile ["lnk".data] ["Ann".data] [3]).2 = true ∧
    (writeLinksFile ["lnk".data] ["Ann".data] [3]).1[0]?
      = some (fileLine "Ann".data 3 "lnk".data) := by
  have h := write_one_line_per_link ["lnk".data] ["Ann".data] [3] (by decide) (by decide)
  exact ⟨h.1, h.2.2 0 "lnk".data "Ann".data 3 rfl rfl rfl⟩

theorem goWrite_overflow (winners : List (List Char)) (delayed : List Nat) :
    ∀ (links : List (List Char)) (i0 : Nat),
      i0 ≤ winners.length → winners.length < i0 + links.length →
      i0 + links.length ≤ delayed.length →
      (goWrite winners delayed i0 links).2 = false ∧
      (goWrite winners delayed i0 links).1.length = winners.length - i0 := by
  intro links
  induction links with
  | nil =>
    intro i0 h1 h2 h3
    exact absurd h2 (by simp only [List.length_nil]; omega)
  | cons l0 ls ih =>
    intro i0 h1 h2 h3
    by_cases hi : i0 < winners.length
    · have hid : i0 < delayed.length := by
        simp only [List.length_cons] at h3
        omega
      have hw0 : winners[i0]? = some winners[i0] := List.getElem?_eq_getElem hi
      have hd0 : delayed[i0]? = some delayed[i0] := List.getElem?_eq_getElem hid
      have hgw : goWrite winners delayed i0 (l0 :: ls)
          = (fileLine winners[i0] delayed[i0] l0 :: (goWrite winners delayed (i0 + 1) ls).1,
             (goWrite winners delayed (i0 + 1) ls).2) := by
        simp only [goWrite, hw0, hd0]
      obtain ⟨ihf, ihlen⟩ := ih (i0 + 1) (by omega)
        (by simp only [List.length_cons] at h2; omega)
        (by simp only [List.length_cons] at h3; omega)
      constructor
      · rw [hgw]
        exact ihf
      · rw [hgw]
        simp only [List.length_cons, ihlen]
        omega
    · have hw0 : winners[i0]? = none := List.getElem?_eq_none (by omega)
      have hgw : goWrite winners delayed i0 (l0 :: ls) = ([], false) := by
        simp only [goWrite, hw0]
      rw [hgw]
      exact ⟨rfl, by simp only [List.length_nil]; omega⟩

/-- Claim C10: whenever the recorded links outnumber the recorded winners,
the file loop reads `winner_per_game[i]` out of bounds: it writes exactly
the lines for the indices below the winner count and then stops with an
`IndexError` — a crash with a partially written file, not just silent
misalignment. -/
theorem write_crash_on_missing_winner (outs : List (List Char))
    (h : (runAll outs).winnerPerGame.length < (runAll outs).links.length) :
    (writeLinksFile (runAll outs).links (runAll outs).winnerPerGame
        (runAll outs).delayed).2 = false ∧
    (writeLinksFile (runAll outs).links (runAll outs).winnerPerGame
        (runAll outs).delayed).1.length = (runAll outs).winnerPerGame.length := by
  have hld : (runAll outs).links.length ≤ (runAll outs).delayed.length := by
    rw [runAll_links, runAll_delayed, List.length_map]
    exact List.length_filterMap_le trialLink outs
  have h0 := goWrite_overflow (runAll outs).winnerPerGame (runAll outs).delayed
    (runAll outs).links 0 (by omega) (by omega) (by omega)
  exact ⟨h0.1, by simpa using h0.2⟩

/-- Witness for C10 at a concrete run with a link but no winner. -/
theorem write_crash_witness :
    (writeLinksFile (runAll ["Game result is in: y".data]).links
        (runAll ["Game result is in: y".data]).winnerPerGame
        (runAll ["Game result is in: y".data]).delayed).2 = false ∧
    (writeLinksFile (runAll ["Game result is in: y".data]).links
        (runAll ["Game result is in: y".data]).winnerPerGame
        (runAll ["Game result is in: y".data]).delayed).1.length
      = (runAll ["Game result is in: y".data]).winnerPerGame.length :=
  write_crash_on_missing_winner ["Game result is in: y".data] (by decide)

end Stats
